import Mathlib

/-!
A shallow embedding of the path router implemented in `router.go`:
a segment-keyed trie with two wildcard child keys (`*` and `*` followed
by a slash), a fixed verb table per routed node, and a dispatcher that
maps a (method, path) pair either to a handler invocation with the
accumulated wildcard captures or to an error status.

Paths are modelled as `List Char` (Go strings of ASCII bytes); the Go
`map[string]*router` of children is embedded as an association list
whose lookup returns the unique binding for a key; Go `nil` handlers
and `nil` routes are `Option`s; a Go runtime panic of the dispatcher is
the explicit outcome `Outcome.panicked`.
-/

namespace RouterSpec

/-- Convert a string literal to the character list used for paths. -/
def str (s : String) : List Char := s.toList

/-- The closed verb enumeration (Go: `Delete`, `Get`, `Head`, `Options`,
`Patch`, `Post`, `Put`); the Go sentinel `unknownVerb` is only an array
size and is modelled by `none : Option Verb`. -/
inductive Verb : Type
  | delete
  | get
  | head
  | options
  | patch
  | post
  | put
deriving DecidableEq

/-- The order of the seven verbs as Go iterates them in `HandleAll`
(`for i := 0; i < int(unknownVerb); i++`). -/
def verbList : List Verb :=
  [.delete, .get, .head, .options, .patch, .post, .put]

/-- Go: `var verbs = map[string]Verb` resolving a request method string. -/
def verbOf (m : String) : Option Verb :=
  if m = "DELETE" then some .delete
  else if m = "GET" then some .get
  else if m = "HEAD" then some .head
  else if m = "OPTIONS" then some .options
  else if m = "PATCH" then some .patch
  else if m = "POST" then some .post
  else if m = "PUT" then some .put
  else none

/-- Go: `type route struct { vb [unknownVerb]Handler }`: one slot per
verb; a Go `nil` handler in a slot is `none`. `H` is the opaque handler
payload. -/
structure route (H : Type) : Type where
  dlt : Option H
  gt : Option H
  hd : Option H
  opt : Option H
  pa : Option H
  po : Option H
  pu : Option H
deriving DecidableEq

variable {H : Type}

/-- The all-nil verb table Go allocates with `&route{}`. -/
def route0 : route H := ⟨none, none, none, none, none, none, none⟩

/-- Read the slot of a verb (Go: `r.rt.vb[v]`). -/
def getSlot (r : route H) : Verb → Option H
  | .delete => r.dlt
  | .get => r.gt
  | .head => r.hd
  | .options => r.opt
  | .patch => r.pa
  | .post => r.po
  | .put => r.pu

/-- Write the slot of a verb (Go: `r.rt.vb[verb] = h`). -/
def setSlot (r : route H) (v : Verb) (h : Option H) : route H :=
  match v with
  | .delete => ⟨h, r.gt, r.hd, r.opt, r.pa, r.po, r.pu⟩
  | .get => ⟨r.dlt, h, r.hd, r.opt, r.pa, r.po, r.pu⟩
  | .head => ⟨r.dlt, r.gt, h, r.opt, r.pa, r.po, r.pu⟩
  | .options => ⟨r.dlt, r.gt, r.hd, h, r.pa, r.po, r.pu⟩
  | .patch => ⟨r.dlt, r.gt, r.hd, r.opt, h, r.po, r.pu⟩
  | .post => ⟨r.dlt, r.gt, r.hd, r.opt, r.pa, h, r.pu⟩
  | .put => ⟨r.dlt, r.gt, r.hd, r.opt, r.pa, r.po, h⟩

/-- Go: `type router struct { ch map[string]*router; rt *route }`.
The children map is embedded as an association list with unique keys. -/
inductive router (H : Type) : Type
  | node (ch : List (List Char × router H)) (rt : Option (route H))

/-- The children of a node. -/
def chOf : router H → List (List Char × router H)
  | .node ch _ => ch

/-- The optional route of a node. -/
def rtOf : router H → Option (route H)
  | .node _ rt => rt

/-- The empty node Go allocates with `&router{}`. -/
def emptyRouter (H : Type) : router H := .node [] none

/-- Association-list lookup, embedding the Go map read `r.ch[k]`. -/
def lookupA : List (List Char × router H) → List Char → Option (router H)
  | [], _ => none
  | (k2, c) :: rest, k => if k2 = k then some c else lookupA rest k

/-- Association-list write, embedding the Go map write `r.ch[k] = c`. -/
def setA : List (List Char × router H) → List Char → router H → List (List Char × router H)
  | [], k, c => [(k, c)]
  | (k2, c2) :: rest, k, c =>
    if k2 = k then (k, c) :: rest else (k2, c2) :: setA rest k c

/-- Look a child up under a segment key. -/
def lookupCh (t : router H) (k : List Char) : Option (router H) :=
  lookupA (chOf t) k

/-- Replace (or add) the child under a segment key. -/
def setChild (t : router H) (k : List Char) (c : router H) : router H :=
  .node (setA (chOf t) k c) (rtOf t)

/-- The existing child under a key, or a fresh empty node (Go `place`:
`ch := r.ch[k]; if ch == nil { ch = &router{} ... }`). -/
def childOr (t : router H) (k : List Char) : router H :=
  (lookupCh t k).getD (emptyRouter H)

/-- The next segment key of a path: the text up to and including the
next slash, or the whole remaining path when it has no slash (Go:
`k := path; if ix := strings.Index(path, "/"); ix >= 0 { k = path[:ix+1] }`). -/
def keyOf : List Char → List Char
  | [] => []
  | c :: cs => if c = '/' then ['/'] else c :: keyOf cs

/-- The remainder of a path after its next segment key (Go:
`path[len(k):]`). -/
def restOf : List Char → List Char
  | [] => []
  | c :: cs => if c = '/' then cs else restOf cs

/-- Accumulator-based splitting of a path into the successive segment
keys that `keyOf`/`restOf` produce; `acc` holds the (reversed) chars of
the pending segment. -/
def segsAux : List Char → List Char → List (List Char)
  | acc, [] => if acc.isEmpty then [] else [acc.reverse]
  | acc, c :: cs =>
    if c = '/' then (acc.reverse ++ ['/']) :: segsAux [] cs
    else segsAux (c :: acc) cs

/-- The list of segment keys of a path. -/
def segs (p : List Char) : List (List Char) := segsAux [] p

/-- Go: `strings.TrimRight(k, "/")`. -/
def trimSlash (k : List Char) : List Char :=
  ((k.reverse).dropWhile (fun c => c = '/')).reverse

/-- The wildcard key tried at a node: Go chooses the slash wildcard
when the current segment key ends in a slash, else the bare `*`
(`w := "*"; if k[len(k)-1] == '/' { w = "*" + "/" }`). -/
def wkey (k : List Char) : List Char :=
  if k.getLast? = some '/' then str "*/" else str "*"

/-- Go's routed-result filter inside `find`: a recursive result is kept
only when it is non-nil and owns a route (`if h != nil { if h.rt != nil
{ return h } }`). -/
def check1 : Option (router H) → Option (router H)
  | some n =>
    match rtOf n with
    | some _ => some n
    | none => none
  | none => none

/-- The body of Go `find`, over the pre-split segment keys of the path.
The capture accumulator `ns` embeds the Go `names *[]string` slice: it
is appended to when a wildcard child is entered and is never rolled
back when a branch fails, exactly as in the source. -/
def findSegs : router H → List (List Char) → List (List Char) →
    Option (router H) × List (List Char)
  | t, [], ns => (some t, ns)
  | t, k :: ks, ns =>
    let first :=
      match lookupCh t k with
      | some c =>
        let pr := findSegs c ks ns
        (check1 pr.1, pr.2)
      | none => (none, ns)
    match first.1 with
    | some n => (some n, first.2)
    | none =>
      match lookupCh t (wkey k) with
      | some c =>
        let pr := findSegs c ks (first.2 ++ [trimSlash k])
        (check1 pr.1, pr.2)
      | none => (none, first.2)

/-- Go `find` on a path: the source recomputes `keyOf`/`restOf` at each
call; here the path is pre-split into exactly those keys (see
`segs_cons`, which recovers the per-call splitting). -/
def find (t : router H) (p : List Char) (ns : List (List Char)) :
    Option (router H) × List (List Char) :=
  findSegs t (segs p) ns

/-- Walk (creating missing nodes) to the node addressed by a list of
segment keys and modify it: the functional embedding of Go `place`
followed by a mutation of the node `place` returns. -/
def updAt : router H → List (List Char) → (router H → router H) → router H
  | t, [], f => f t
  | t, k :: ks, f => setChild t k (updAt (childOr t k) ks f)

/-- Go `set`: create the route if absent, then write the verb's slot. -/
def setVb : router H → Verb → Option H → router H
  | .node ch rt, v, h => .node ch (some (setSlot (rt.getD route0) v h))

/-- `Handle` on pre-split segment keys: place the path, then set. -/
def handleSegs (t : router H) (ss : List (List Char)) (v : Verb) (h : Option H) :
    router H :=
  updAt t ss (fun n => setVb n v h)

/-- Go `Handle`: `r.place(path[1:]).set(verb, h)`. The source slices
off the first byte of the path unconditionally (and panics on an empty
registration path, a documented caller-contract violation); here the
slice is a total `List.drop 1`. -/
def handle (t : router H) (v : Verb) (path : List Char) (h : Option H) : router H :=
  handleSegs t (segs (path.drop 1)) v h

/-- The loop body of Go `HandleAll`: set every verb slot of one node. -/
def setAllVerbs (t : router H) (h : Option H) : router H :=
  verbList.foldl (fun m v => setVb m v h) t

/-- Go `HandleAll`: place the path once, then set all seven slots of
the terminal node. -/
def handleAll (t : router H) (path : List Char) (h : Option H) : router H :=
  updAt t (segs (path.drop 1)) (fun n => setAllVerbs n h)

/-- Go `Build`: `n := *r; *r = router{}; return &n` — return the
current tree as the serving handler and leave the builder empty. -/
def build (t : router H) : router H × router H := (t, emptyRouter H)

/-- The observable outcome of one `ServeHTTP` call: a synthesized 405,
a synthesized 404, a Go runtime panic, or the invocation of a handler
with the accumulated captures. -/
inductive Outcome (H : Type) : Type
  | methodNotAllowed
  | notFound
  | panicked
  | invoked (h : H) (captures : List (List Char))
deriving DecidableEq

/-- Go `ServeHTTP`: resolve the method, slice the leading byte off the
path (`req.URL.Path[1:]` — a panic when the path is empty), run `find`,
and convert the result into an outcome. -/
def serve (t : router H) (m : String) (p : List Char) : Outcome H :=
  match verbOf m with
  | none => .methodNotAllowed
  | some v =>
    match p with
    | [] => .panicked
    | _ :: rest =>
      match find t rest [] with
      | (none, _) => .notFound
      | (some n, ns) =>
        match rtOf n with
        | none => .notFound
        | some r =>
          match getSlot r v with
          | none => .methodNotAllowed
          | some h => .invoked h ns

/-- A registration call on the builder. -/
inductive Op (H : Type) : Type
  | reg (v : Verb) (path : List Char) (h : Option H)
  | regAll (path : List Char) (h : Option H)

/-- Apply one registration call. -/
def applyOp (t : router H) : Op H → router H
  | .reg v p h => handle t v p h
  | .regAll p h => handleAll t p h

/-- Apply a sequence of registration calls in order. -/
def applyOps (t : router H) (ops : List (Op H)) : router H :=
  ops.foldl applyOp t

/-- A registration whose handler argument is not the Go `nil` handler. -/
def opOk : Op H → Prop
  | .reg _ _ h => h ≠ none
  | .regAll _ h => h ≠ none

/-- The trie address (segment-key list) a registration terminates at. -/
def opPath : Op H → List (List Char)
  | .reg _ p _ => segs (p.drop 1)
  | .regAll p _ => segs (p.drop 1)

/-- The node of a tree at a list of segment keys, if present. -/
def nodeAt : router H → List (List Char) → Option (router H)
  | t, [] => some t
  | t, k :: ks =>
    match lookupCh t k with
    | some c => nodeAt c ks
    | none => none

/-- The spec's node invariant: every node that owns a route has at
least one populated verb slot (checked hereditarily on all children). -/
inductive RouteInv : router H → Prop
  | node (ch : List (List Char × router H)) (rt : Option (route H))
      (hrt : ∀ r, rt = some r → ∃ v, getSlot r v ≠ none)
      (hch : ∀ k c, (k, c) ∈ ch → RouteInv c) :
      RouteInv (.node ch rt)

/-- A single registered pattern, segment by segment, matched against a
request's segment keys the way `find` walks a linear (single-pattern)
trie: a literal key must be hit exactly, a `*` pattern segment consumes
one key not ending in a slash, a slash wildcard consumes one key ending
in a slash; request keys that are literally equal to a wildcard key are
excluded, since those would be consumed by the concrete-child branch. -/
inductive SegsMatch : List (List Char) → List (List Char) → Prop
  | nil : SegsMatch [] []
  | lit (k : List Char) (ps ks : List (List Char)) :
      k ≠ str "*" → k ≠ str "*/" → SegsMatch ps ks →
      SegsMatch (k :: ps) (k :: ks)
  | wild (k : List Char) (ps ks : List (List Char)) :
      k.getLast? ≠ some '/' → k ≠ str "*" → SegsMatch ps ks →
      SegsMatch (str "*" :: ps) (k :: ks)
  | wildSlash (k : List Char) (ps ks : List (List Char)) :
      k.getLast? = some '/' → k ≠ str "*/" → SegsMatch ps ks →
      SegsMatch (str "*/" :: ps) (k :: ks)

/-- The literal segments (trailing slash trimmed) consumed by the
wildcard segments of a pattern, in root-to-leaf order. -/
def caps : List (List Char) → List (List Char) → List (List Char)
  | p :: ps, k :: ks =>
    if p = str "*" ∨ p = str "*/" then trimSlash k :: caps ps ks
    else caps ps ks
  | _, _ => []

/-- The linear trie a single registration produces: one child per
level, the route at the leaf. -/
def chainT : List (List Char) → Option (route H) → router H
  | [], rt => .node [] rt
  | k :: ks, rt => .node [(k, chainT ks rt)] none

/-- The node component of `find`, with an empty capture accumulator. -/
def findFst (t : router H) (ks : List (List Char)) : Option (router H) :=
  (findSegs t ks []).1

/-- The captures appended by one `find` walk, independent of what the
accumulator already held. -/
def findTrace (t : router H) (ks : List (List Char)) : List (List Char) :=
  (findSegs t ks []).2

theorem findSegs_pair (ks : List (List Char)) :
    ∀ (t : router H) (ns : List (List Char)),
    findSegs t ks ns = (findFst t ks, ns ++ findTrace t ks) := by
  induction ks with
  | nil => intro t ns; simp [findSegs, findFst, findTrace]
  | cons k kt ih =>
    intro t ns
    simp only [findFst, findTrace, findSegs]
    cases hc : lookupCh t k with
    | none =>
      cases hw : lookupCh t (wkey k) with
      | none => simp
      | some c => simp [ih c]
    | some c =>
      simp only [ih c]
      cases h1 : check1 (findFst c kt) with
      | some n => simp [h1]
      | none =>
        cases hw : lookupCh t (wkey k) with
        | none => simp [h1]
        | some c2 => simp [ih c2, h1, List.append_assoc]

theorem segsAux_eq : ∀ (p acc : List Char), (acc = [] → p ≠ []) →
    segsAux acc p = (acc.reverse ++ keyOf p) :: segs (restOf p) := by
  intro p
  induction p with
  | nil =>
    intro acc h
    have hacc : acc ≠ [] := fun he => h he rfl
    simp [segsAux, keyOf, restOf, segs, hacc]
  | cons c cs ih =>
    intro acc _
    by_cases hc : c = '/'
    · subst hc
      simp [segsAux, keyOf, restOf, segs]
    · cases cs with
      | nil =>
        simp [segsAux, hc, keyOf, restOf, segs]
      | cons c2 cs2 =>
        have h2 := ih (c :: acc) (by simp)
        have hstep : segsAux acc (c :: c2 :: cs2) = segsAux (c :: acc) (c2 :: cs2) := by
          simp [segsAux, hc]
        rw [hstep, h2]
        simp [keyOf, restOf, hc, List.reverse_cons, List.append_assoc]

theorem segs_cons (p : List Char) (hp : p ≠ []) :
    segs p = keyOf p :: segs (restOf p) := by
  have h := segsAux_eq p [] (fun _ => hp)
  simpa [segs] using h

theorem keyOf_ne_nil (p : List Char) (hp : p ≠ []) : keyOf p ≠ [] := by
  cases p with
  | nil => exact absurd rfl hp
  | cons c cs =>
    by_cases hc : c = '/'
    · simp [keyOf, hc]
    · simp [keyOf, hc]

theorem restOf_length_le (p : List Char) : (restOf p).length ≤ p.length := by
  induction p with
  | nil => simp [restOf]
  | cons c cs ih =>
    by_cases hc : c = '/'
    · simp [restOf, hc]
    · simp [restOf, hc]
      omega

theorem restOf_length_lt (p : List Char) (hp : p ≠ []) :
    (restOf p).length < p.length := by
  cases p with
  | nil => exact absurd rfl hp
  | cons c cs =>
    by_cases hc : c = '/'
    · simp [restOf, hc]
    · have h := restOf_length_le cs
      simp [restOf, hc]
      omega

theorem findSegs_fst (t : router H) (ks ns : List (List Char)) :
    (findSegs t ks ns).1 = findFst t ks := by
  rw [findSegs_pair]

/-- C10: `find` and `place` recurse on a strictly shorter remaining
path because a non-empty path always yields a non-empty segment key;
in this embedding both walk `segs p`, and `segs` peels exactly the
source's per-call key `keyOf p` off a non-empty path, with the
remainder `restOf p` strictly shorter (so the recursion, hence `find`
and `place`, terminates on every input). -/
theorem c10_find_place_terminate (p : List Char) (hp : p ≠ []) :
    keyOf p ≠ [] ∧ (restOf p).length < p.length ∧
      segs p = keyOf p :: segs (restOf p) :=
  ⟨keyOf_ne_nil p hp, restOf_length_lt p hp, segs_cons p hp⟩

theorem c10_witness :
    (str "a/b") ≠ ([] : List Char) ∧
      (keyOf (str "a/b") ≠ [] ∧
        (restOf (str "a/b")).length < (str "a/b").length ∧
        segs (str "a/b") = keyOf (str "a/b") :: segs (restOf (str "a/b"))) :=
  ⟨by decide, c10_find_place_terminate (str "a/b") (by decide)⟩

/-- C1: on a non-empty path the matcher first tries the concrete child
for the next segment key and short-circuits with that branch's result
exactly when it is a node owning a route (`check1` is non-`none`);
whenever the concrete branch yields no routed node — including when a
concrete child exists but its walk ends at an unrouted node — the
result is whatever the wildcard child (`*` with a slash when the key
ends in a slash, bare `*` otherwise) yields, so an existing-but-unrouted
concrete match never blocks the wildcard fallback. -/
theorem c1_concrete_first_wildcard_fallback (H : Type) (t : router H)
    (p : List Char) (ns : List (List Char)) (hp : p ≠ []) :
    (∀ c, lookupCh t (keyOf p) = some c →
        check1 (find c (restOf p) ns).1 ≠ none →
        (find t p ns).1 = check1 (find c (restOf p) ns).1)
    ∧ ((∀ c, lookupCh t (keyOf p) = some c →
          check1 (find c (restOf p) ns).1 = none) →
        (find t p ns).1 =
          match lookupCh t (wkey (keyOf p)) with
          | some c => check1 (find c (restOf p) ns).1
          | none => none) := by
  have hs : segs p = keyOf p :: segs (restOf p) := segs_cons p hp
  constructor
  · intro c hc hne
    simp only [find] at hne ⊢
    rw [hs]
    simp only [findSegs, hc]
    cases h1 : check1 (findSegs c (segs (restOf p)) ns).1 with
    | none => exact absurd h1 hne
    | some n => simp [h1]
  · intro hall
    simp only [find] at hall ⊢
    rw [hs]
    simp only [findSegs]
    cases hc : lookupCh t (keyOf p) with
    | none =>
      cases hw : lookupCh t (wkey (keyOf p)) with
      | none => simp
      | some c2 =>
        simp only [findSegs_fst]
    | some c =>
      have h1 := hall c hc
      simp only [h1]
      cases hw : lookupCh t (wkey (keyOf p)) with
      | none => simp
      | some c2 =>
        simp only [findSegs_fst]

theorem c1_witness :
    (find (handle (emptyRouter Nat) .get (str "/*") (some 2)) (str "a") []).1 =
      match lookupCh (handle (emptyRouter Nat) .get (str "/*") (some 2))
          (wkey (keyOf (str "a"))) with
      | some c => check1 (find c (restOf (str "a")) []).1
      | none => none :=
  (c1_concrete_first_wildcard_fallback Nat
      (handle (emptyRouter Nat) .get (str "/*") (some 2)) (str "a") []
      (by decide)).2
    (fun _ hc => Option.noConfusion hc)

/-- C3: for every request with a non-empty URL path the dispatcher
produces exactly one of three outcomes: an unrecognized method string
yields 405 without invoking a handler; a recognized method whose walk
finds no node, or a node without a route, yields 404; a routed node
whose slot for the resolved verb is empty yields 405; otherwise the
registered handler is invoked (with the accumulated captures) and no
status is synthesized by the router. -/
theorem c3_dispatch_trichotomy (H : Type) (t : router H) (m : String)
    (p : List Char) (hp : p ≠ []) :
    (verbOf m = none → serve t m p = .methodNotAllowed)
    ∧ (∀ v, verbOf m = some v →
        ((find t (p.drop 1) []).1 = none → serve t m p = .notFound)
        ∧ (∀ n, (find t (p.drop 1) []).1 = some n → rtOf n = none →
            serve t m p = .notFound)
        ∧ (∀ n r, (find t (p.drop 1) []).1 = some n → rtOf n = some r →
            getSlot r v = none → serve t m p = .methodNotAllowed)
        ∧ (∀ n r hh, (find t (p.drop 1) []).1 = some n → rtOf n = some r →
            getSlot r v = some hh →
            serve t m p = .invoked hh (find t (p.drop 1) []).2)) := by
  cases p with
  | nil => exact absurd rfl hp
  | cons c rest =>
    constructor
    · intro hv
      simp [serve, hv]
    · intro v hv
      rcases hfr : find t rest [] with ⟨o, ns⟩
      have hd : (c :: rest).drop 1 = rest := rfl
      rw [hd]
      refine ⟨?_, ?_, ?_, ?_⟩
      · intro h1
        rw [hfr] at h1
        simp only at h1
        subst h1
        simp [serve, hv, hfr]
      · intro n h1 h2
        rw [hfr] at h1
        simp only at h1
        subst h1
        simp [serve, hv, hfr, h2]
      · intro n r h1 h2 h3
        rw [hfr] at h1
        simp only at h1
        subst h1
        simp [serve, hv, hfr, h2, h3]
      · intro n r hh h1 h2 h3
        rw [hfr] at h1
        simp only at h1
        subst h1
        simp [serve, hv, hfr, h2, h3]

theorem c3_witness :
    serve (emptyRouter Nat) "GET" (str "/a") = Outcome.notFound :=
  ((c3_dispatch_trichotomy Nat (emptyRouter Nat) "GET" (str "/a")
      (by decide)).2 .get rfl).1 rfl

/-- C6 counterexample: a recognized method together with the empty URL
path makes `ServeHTTP` panic: the source slices `req.URL.Path[1:]`
unconditionally, and slicing an empty Go string at 1 panics. -/
theorem c6_counterexample_empty_path :
    serve (emptyRouter Nat) "GET" ([] : List Char) = Outcome.panicked := by
  decide

/-- C6 (amended): for every request whose URL path is non-empty, the
dispatcher terminates with one of its three responses or a handler
invocation and never panics; only the empty path (excluded here, and
impossible for an absolute HTTP path) reaches the panicking slice. -/
theorem c6_amended_no_panic (H : Type) (t : router H) (m : String)
    (p : List Char) (hp : p ≠ []) : serve t m p ≠ .panicked := by
  cases p with
  | nil => exact absurd rfl hp
  | cons c rest =>
    cases hv : verbOf m with
    | none => simp [serve, hv]
    | some v =>
      rcases hfr : find t rest [] with ⟨o, ns⟩
      cases o with
      | none => simp [serve, hv, hfr]
      | some n =>
        cases hr : rtOf n with
        | none => simp [serve, hv, hfr, hr]
        | some r =>
          cases hsl : getSlot r v with
          | none => simp [serve, hv, hfr, hr, hsl]
          | some hh => simp [serve, hv, hfr, hr, hsl]

theorem c6_witness :
    (str "/") ≠ ([] : List Char) ∧
      serve (emptyRouter Nat) "GET" (str "/") ≠ Outcome.panicked :=
  ⟨by decide, c6_amended_no_panic Nat (emptyRouter Nat) "GET" (str "/") (by decide)⟩

theorem lookupA_setA (ch : List (List Char × router H)) (k : List Char)
    (c : router H) (k2 : List Char) :
    lookupA (setA ch k c) k2 = if k = k2 then some c else lookupA ch k2 := by
  induction ch with
  | nil =>
    by_cases h : k = k2
    · simp [setA, lookupA, h]
    · simp [setA, lookupA, h]
  | cons p rest ih =>
    obtain ⟨k3, c3⟩ := p
    by_cases h3 : k3 = k
    · subst h3
      by_cases h2 : k3 = k2
      · simp [setA, lookupA, h2]
      · simp [setA, lookupA, h2]
    · by_cases h2 : k3 = k2
      · subst h2
        have hne : ¬k = k3 := fun he => h3 he.symm
        simp [setA, lookupA, h3, hne]
      · simp [setA, lookupA, h3, h2, ih]

theorem setA_setA (ch : List (List Char × router H)) (k : List Char)
    (c c2 : router H) :
    setA (setA ch k c) k c2 = setA ch k c2 := by
  induction ch with
  | nil => simp [setA]
  | cons p rest ih =>
    obtain ⟨k3, c3⟩ := p
    by_cases h3 : k3 = k
    · subst h3
      simp [setA]
    · simp [setA, h3, ih]

theorem childOr_setChild (t : router H) (k : List Char) (c : router H) :
    childOr (setChild t k c) k = c := by
  simp [childOr, setChild, lookupCh, chOf, lookupA_setA]

theorem setChild_setChild (t : router H) (k : List Char) (c c2 : router H) :
    setChild (setChild t k c) k c2 = setChild t k c2 := by
  simp [setChild, chOf, rtOf, setA_setA]

theorem updAt_comp (ss : List (List Char)) :
    ∀ (t : router H) (f g : router H → router H),
    updAt (updAt t ss f) ss g = updAt t ss (fun n => g (f n)) := by
  induction ss with
  | nil => intro t f g; rfl
  | cons k ks ih =>
    intro t f g
    simp only [updAt]
    rw [childOr_setChild, setChild_setChild, ih]

theorem setSlot_setSlot (r : route H) (v : Verb) (h1 h2 : Option H) :
    setSlot (setSlot r v h1) v h2 = setSlot r v h2 := by
  cases v <;> rfl

theorem getSlot_setSlot (r : route H) (v : Verb) (h : Option H) :
    getSlot (setSlot r v h) v = h := by
  cases v <;> rfl

theorem setVb_setVb (n : router H) (v : Verb) (h1 h2 : Option H) :
    setVb (setVb n v h1) v h2 = setVb n v h2 := by
  cases n with
  | node ch rt =>
    simp [setVb, setSlot_setSlot]

/-- C5: `Build` hands back the current tree as the serving handler and
leaves the builder in the empty state, so the handler serves exactly
the tree the prior registrations built, and any later registrations act
on a fresh tree identical to one grown from an empty builder — they
cannot change what the returned handler serves. (In the source the
snapshot `n := *r` shares the old children map with the handler, but
`*r = router{}` nils the builder's map and `place` then allocates a
fresh one, so the returned tree is never mutated again; the embedding
renders this verified aliasing analysis as value semantics.) -/
theorem c5_build_snapshot_reset (H : Type) (ops1 ops2 : List (Op H))
    (m : String) (p : List Char) :
    (build (applyOps (emptyRouter H) ops1)).2 = emptyRouter H
    ∧ serve (build (applyOps (emptyRouter H) ops1)).1 m p
        = serve (applyOps (emptyRouter H) ops1) m p
    ∧ applyOps ((build (applyOps (emptyRouter H) ops1)).2) ops2
        = applyOps (emptyRouter H) ops2 :=
  ⟨rfl, rfl, rfl⟩

/-- C8: re-registering the same (verb, path) silently overwrites: the
tree after `Handle(v, p, h1); Handle(v, p, h2)` is identical to the
tree after `Handle(v, p, h2)` alone, so dispatching finds `h2`, `h1` is
unreachable, and every other registration is untouched (the trees are
equal, hence every request behaves identically). -/
theorem c8_second_registration_wins (H : Type) (t : router H) (v : Verb)
    (p : List Char) (h1 h2 : Option H) (m : String) (q : List Char) :
    handle (handle t v p h1) v p h2 = handle t v p h2
    ∧ serve (handle (handle t v p h1) v p h2) m q
        = serve (handle t v p h2) m q := by
  have he : handle (handle t v p h1) v p h2 = handle t v p h2 := by
    unfold handle handleSegs
    rw [updAt_comp]
    exact congrArg (updAt t (segs (p.drop 1)))
      (funext fun n => setVb_setVb n v h1 h2)
  exact ⟨he, by rw [he]⟩

theorem foldl_handleSegs (l : List Verb) (ss : List (List Char)) (h : Option H) :
    ∀ (t : router H) (f : router H → router H),
    l.foldl (fun acc v => handleSegs acc ss v h) (updAt t ss f)
      = updAt t ss (fun n => l.foldl (fun m v => setVb m v h) (f n)) := by
  induction l with
  | nil => intro t f; simp [List.foldl]
  | cons v l ihl =>
    intro t f
    simp only [List.foldl]
    rw [handleSegs, updAt_comp]
    exact ihl t _

/-- C9: `HandleAll(path, h)` leaves the builder in exactly the state of
seven successive `Handle(v, path, h)` calls, one per verb in the order
DELETE, GET, HEAD, OPTIONS, PATCH, POST, PUT. -/
theorem c9_handleAll_is_seven_handles (H : Type) (t : router H)
    (p : List Char) (h : Option H) :
    handleAll t p h = verbList.foldl (fun acc v => handle acc v p h) t := by
  have key := foldl_handleSegs [.get, .head, .options, .patch, .post, .put]
    (segs (p.drop 1)) h t (fun n => setVb n .delete h)
  simp only [List.foldl, handleSegs] at key
  simp only [verbList, List.foldl, handle, handleSegs]
  rw [key]
  rfl

theorem handleSegs_empty_chain (ss : List (List Char)) :
    ∀ (v : Verb) (h : Option H),
    handleSegs (emptyRouter H) ss v h = chainT ss (some (setSlot route0 v h)) := by
  induction ss with
  | nil => intro v h; rfl
  | cons k ks ih =>
    intro v h
    show setChild (emptyRouter H) k
        (updAt (childOr (emptyRouter H) k) ks (fun n => setVb n v h)) = _
    rw [show childOr (emptyRouter H) k = emptyRouter H from rfl]
    show setChild (emptyRouter H) k (handleSegs (emptyRouter H) ks v h) = _
    rw [ih]
    rfl

theorem chainT_find (pat req : List (List Char)) (hm : SegsMatch pat req) :
    ∀ (ns : List (List Char)) (r : route H),
    findSegs (chainT pat (some r)) req ns
      = (some (.node [] (some r)), ns ++ caps pat req) := by
  induction hm with
  | nil => intro ns r; simp [chainT, findSegs, caps]
  | lit k ps ks h1 h2 _ ih =>
    intro ns r
    simp only [chainT, findSegs]
    have hl : lookupCh (router.node [(k, chainT ps (some r))] none) k
        = some (chainT ps (some r)) := by
      simp [lookupCh, chOf, lookupA]
    rw [hl]
    simp [ih, check1, rtOf, caps, h1, h2]
  | wild k ps ks hlast hne _ ih =>
    intro ns r
    simp only [chainT, findSegs]
    have hstar : ¬(str "*" = k) := fun he => hne he.symm
    have hl : lookupCh (router.node [(str "*", chainT ps (some r))] none) k
        = none := by
      simp [lookupCh, chOf, lookupA, hstar]
    have hw : wkey k = str "*" := by simp [wkey, hlast]
    have hl2 : lookupCh (router.node [(str "*", chainT ps (some r))] none)
        (str "*") = some (chainT ps (some r)) := by
      simp [lookupCh, chOf, lookupA]
    rw [hl, hw, hl2]
    simp [ih, check1, rtOf, caps, hne, List.append_assoc]
  | wildSlash k ps ks hlast hne _ ih =>
    intro ns r
    simp only [chainT, findSegs]
    have hstar : ¬(str "*/" = k) := fun he => hne he.symm
    have hl : lookupCh (router.node [(str "*/", chainT ps (some r))] none) k
        = none := by
      simp [lookupCh, chOf, lookupA, hstar]
    have hw : wkey k = str "*/" := by simp [wkey, hlast]
    have hl2 : lookupCh (router.node [(str "*/", chainT ps (some r))] none)
        (str "*/") = some (chainT ps (some r)) := by
      simp [lookupCh, chOf, lookupA]
    rw [hl, hw, hl2]
    simp [ih, check1, rtOf, caps, List.append_assoc]

/-- C2 counterexample: with `GET /a/*/c` and `GET /*/b/d` registered,
dispatching `GET /a/b/d` matches the second pattern, whose only
wildcard consumed the literal `a` — yet the handler receives
`["b", "a"]`: the `b` appended inside the abandoned `/a/` wildcard
branch is never rolled back, so the capture list is not the
wildcard-consumed segments of the matched path. -/
theorem c2_counterexample_stale_capture :
    serve (handle (handle (emptyRouter Nat) .get (str "/a/*/c") (some 1))
        .get (str "/*/b/d") (some 2)) "GET" (str "/a/b/d")
      = Outcome.invoked 2 [str "b", str "a"]
    ∧ [str "b", str "a"] ≠ [str "a"] :=
  ⟨by decide, by decide⟩

/-- C2 (amended): the capture list handed to a handler is the sequence
of trimmed segment keys appended each time the search enters a wildcard
child, in visit order — which includes segments from wildcard branches
later abandoned. When the search never abandons a wildcard branch, as
for a router holding a single registered pattern, this is exactly the
ordered sequence of literal segments consumed by the matched pattern's
wildcards, root to leaf: dispatching a matching request against the
lone pattern invokes its handler with `caps pattern request`, e.g.
`GET /a/*/*/*` on `/a/foo/bar/baz` yields `["foo","bar","baz"]`. -/
theorem c2_amended_captures (H : Type) (h0 : H) (v : Verb) (m : String)
    (pat p : List Char) (hv : verbOf m = some v) (hp : p ≠ [])
    (hm : SegsMatch (segs (pat.drop 1)) (segs (p.drop 1))) :
    serve (handle (emptyRouter H) v pat (some h0)) m p
      = .invoked h0 (caps (segs (pat.drop 1)) (segs (p.drop 1))) := by
  cases p with
  | nil => exact absurd rfl hp
  | cons c rest =>
    have hd : (c :: rest).drop 1 = rest := rfl
    rw [hd] at hm
    have htree := handleSegs_empty_chain (H := H) (segs (pat.drop 1)) v (some h0)
    have hfind := chainT_find (H := H) (segs (pat.drop 1)) (segs rest) hm []
      (setSlot route0 v (some h0))
    simp only [serve, hv, handle, htree, find, hfind, rtOf, getSlot_setSlot]
    simp

theorem c2_witness :
    verbOf "GET" = some Verb.get ∧
      serve (handle (emptyRouter Nat) .get (str "/a/*/*/*") (some 7)) "GET"
          (str "/a/foo/bar/baz")
        = Outcome.invoked 7 [str "foo", str "bar", str "baz"] := by
  refine ⟨rfl, ?_⟩
  have hm : SegsMatch (segs ((str "/a/*/*/*").drop 1))
      (segs ((str "/a/foo/bar/baz").drop 1)) := by
    show SegsMatch [str "a/", str "*/", str "*/", str "*"]
        [str "a/", str "foo/", str "bar/", str "baz"]
    exact SegsMatch.lit _ _ _ (by decide) (by decide)
      (SegsMatch.wildSlash _ _ _ (by decide) (by decide)
        (SegsMatch.wildSlash _ _ _ (by decide) (by decide)
          (SegsMatch.wild _ _ _ (by decide) (by decide) SegsMatch.nil)))
  exact c2_amended_captures Nat 7 .get "GET" (str "/a/*/*/*")
    (str "/a/foo/bar/baz") rfl (by decide) hm

theorem routeInv_empty : RouteInv (emptyRouter H) :=
  RouteInv.node [] none (by simp) (by simp)

theorem lookupA_mem (ch : List (List Char × router H)) (k : List Char)
    (c : router H) : lookupA ch k = some c → (k, c) ∈ ch := by
  induction ch with
  | nil => intro h; simp [lookupA] at h
  | cons p rest ih =>
    obtain ⟨k2, c2⟩ := p
    intro h
    by_cases he : k2 = k
    · subst he
      simp [lookupA] at h
      simp [h]
    · simp [lookupA, he] at h
      exact List.mem_cons_of_mem _ (ih h)

theorem setA_mem (ch : List (List Char × router H)) (k : List Char)
    (c : router H) (k2 : List Char) (c2 : router H) :
    (k2, c2) ∈ setA ch k c → (k2 = k ∧ c2 = c) ∨ (k2, c2) ∈ ch := by
  induction ch with
  | nil =>
    intro h
    simp [setA] at h
    exact Or.inl h
  | cons p rest ih =>
    obtain ⟨k3, c3⟩ := p
    intro h
    by_cases h3 : k3 = k
    · subst h3
      simp only [setA, if_pos rfl] at h
      rcases List.mem_cons.mp h with heq | hmem
      · exact Or.inl ⟨congrArg Prod.fst heq, congrArg Prod.snd heq⟩
      · exact Or.inr (List.mem_cons_of_mem _ hmem)
    · simp only [setA, if_neg h3] at h
      rcases List.mem_cons.mp h with heq | hmem
      · exact Or.inr (heq ▸ List.mem_cons_self _ _)
      · rcases ih hmem with h1 | h2
        · exact Or.inl h1
        · exact Or.inr (List.mem_cons_of_mem _ h2)

theorem routeInv_child (t : router H) (k : List Char) (c : router H)
    (hInv : RouteInv t) (hl : lookupCh t k = some c) : RouteInv c := by
  cases hInv with
  | node ch rt hrt hch => exact hch k c (lookupA_mem ch k c hl)

theorem routeInv_childOr (t : router H) (k : List Char)
    (hInv : RouteInv t) : RouteInv (childOr t k) := by
  unfold childOr
  cases hl : lookupCh t k with
  | none => exact routeInv_empty
  | some c => exact routeInv_child t k c hInv hl

theorem routeInv_setChild (t : router H) (k : List Char) (c : router H)
    (hInv : RouteInv t) (hc : RouteInv c) : RouteInv (setChild t k c) := by
  cases hInv with
  | node ch rt hrt hch =>
    refine RouteInv.node _ _ hrt ?_
    intro k2 c2 hmem
    rcases setA_mem ch k c k2 c2 hmem with ⟨-, rfl⟩ | hmem2
    · exact hc
    · exact hch k2 c2 hmem2

theorem routeInv_updAt (ss : List (List Char)) :
    ∀ (t : router H) (f : router H → router H),
    (∀ n, RouteInv n → RouteInv (f n)) → RouteInv t →
    RouteInv (updAt t ss f) := by
  induction ss with
  | nil => intro t f hf ht; exact hf t ht
  | cons k ks ih =>
    intro t f hf ht
    exact routeInv_setChild t k _ ht (ih (childOr t k) f hf (routeInv_childOr t k ht))

theorem routeInv_setVb (n : router H) (v : Verb) (h : Option H)
    (hn : RouteInv n) (hh : h ≠ none) : RouteInv (setVb n v h) := by
  cases hn with
  | node ch rt hrt hch =>
    refine RouteInv.node _ _ ?_ hch
    intro r hr
    injection hr with hr2
    exact ⟨v, by rw [← hr2, getSlot_setSlot]; exact hh⟩

theorem routeInv_foldl_setVb (l : List Verb) (h : Option H) (hh : h ≠ none) :
    ∀ t : router H, RouteInv t →
    RouteInv (l.foldl (fun m v => setVb m v h) t) := by
  induction l with
  | nil => intro t ht; exact ht
  | cons v l ih =>
    intro t ht
    exact ih _ (routeInv_setVb t v h ht hh)

theorem routeInv_setAllVerbs (n : router H) (h : Option H)
    (hn : RouteInv n) (hh : h ≠ none) : RouteInv (setAllVerbs n h) :=
  routeInv_foldl_setVb verbList h hh n hn

theorem routeInv_applyOp (t : router H) (o : Op H)
    (ht : RouteInv t) (hok : opOk o) : RouteInv (applyOp t o) := by
  cases o with
  | reg v p h =>
    exact routeInv_updAt _ t _ (fun n hn => routeInv_setVb n v h hn hok) ht
  | regAll p h =>
    exact routeInv_updAt _ t _ (fun n hn => routeInv_setAllVerbs n h hn hok) ht

theorem routeInv_applyOps (ops : List (Op H)) :
    ∀ t : router H, (∀ o ∈ ops, opOk o) → RouteInv t →
    RouteInv (applyOps t ops) := by
  induction ops with
  | nil => intro t _ ht; exact ht
  | cons o rest ih =>
    intro t hok ht
    exact ih (applyOp t o)
      (fun o2 ho2 => hok o2 (List.mem_cons_of_mem _ ho2))
      (routeInv_applyOp t o ht (hok o (List.mem_cons_self _ _)))

theorem rtOf_setChild (t : router H) (k : List Char) (c : router H) :
    rtOf (setChild t k c) = rtOf t := rfl

theorem chOf_setVb (n : router H) (v : Verb) (h : Option H) :
    chOf (setVb n v h) = chOf n := by
  cases n with
  | node ch rt => rfl

theorem chOf_setAllVerbs (n : router H) (h : Option H) :
    chOf (setAllVerbs n h) = chOf n := by
  simp [setAllVerbs, verbList, List.foldl, chOf_setVb]

theorem nodeAt_empty_routed (ks : List (List Char)) (n : router H)
    (hn : nodeAt (emptyRouter H) ks = some n) (hrt : rtOf n ≠ none) : False := by
  cases ks with
  | nil =>
    simp [nodeAt] at hn
    rw [← hn] at hrt
    exact hrt rfl
  | cons k ks2 =>
    simp [nodeAt, lookupCh, emptyRouter, chOf, lookupA] at hn

theorem nodeAt_updAt (ss : List (List Char)) :
    ∀ (t : router H) (f : router H → router H) (ks : List (List Char))
      (n : router H),
    (∀ m, chOf (f m) = chOf m) →
    nodeAt (updAt t ss f) ks = some n → rtOf n ≠ none →
    ks = ss ∨ ∃ m2, nodeAt t ks = some m2 ∧ rtOf m2 ≠ none := by
  induction ss with
  | nil =>
    intro t f ks n hf hn hrt
    cases ks with
    | nil => exact Or.inl rfl
    | cons k ks2 =>
      right
      have hc : lookupCh (f t) k = lookupCh t k := by
        simp [lookupCh, hf t]
      simp only [updAt, nodeAt, hc] at hn
      cases hl : lookupCh t k with
      | none => rw [hl] at hn; exact absurd hn (by simp)
      | some c =>
        rw [hl] at hn
        change nodeAt c ks2 = some n at hn
        exact ⟨n, by simp [nodeAt, hl, hn], hrt⟩
  | cons s ss2 ih =>
    intro t f ks n hf hn hrt
    cases ks with
    | nil =>
      right
      simp only [updAt, nodeAt] at hn
      injection hn with hn2
      refine ⟨t, rfl, ?_⟩
      rw [← hn2] at hrt
      rw [rtOf_setChild] at hrt
      exact hrt
    | cons k ks2 =>
      simp only [updAt, nodeAt] at hn
      by_cases hks : k = s
      · subst hks
        have hc : lookupCh (setChild t k (updAt (childOr t k) ss2 f)) k
            = some (updAt (childOr t k) ss2 f) := by
          simp [lookupCh, setChild, chOf, lookupA_setA]
        rw [hc] at hn
        rcases ih (childOr t k) f ks2 n hf hn hrt with h1 | ⟨m2, hm2, hm2rt⟩
        · exact Or.inl (by rw [h1])
        · cases hl : lookupCh t k with
          | some c0 =>
            right
            refine ⟨m2, ?_, hm2rt⟩
            have hco : childOr t k = c0 := by simp [childOr, hl]
            rw [hco] at hm2
            simp [nodeAt, hl, hm2]
          | none =>
            exfalso
            have hco : childOr t k = emptyRouter H := by simp [childOr, hl]
            rw [hco] at hm2
            exact nodeAt_empty_routed ks2 m2 hm2 hm2rt
      · have hsk : ¬(s = k) := fun he => hks he.symm
        have hc : lookupCh (setChild t s (updAt (childOr t s) ss2 f)) k
            = lookupCh t k := by
          simp [lookupCh, setChild, chOf, lookupA_setA, hsk]
        rw [hc] at hn
        cases hl : lookupCh t k with
        | none => rw [hl] at hn; exact absurd hn (by simp)
        | some c0 =>
          rw [hl] at hn
          change nodeAt c0 ks2 = some n at hn
          right
          exact ⟨n, by simp [nodeAt, hl, hn], hrt⟩

theorem applyOp_routed (t : router H) (o : Op H) (ks : List (List Char))
    (n : router H) (hn : nodeAt (applyOp t o) ks = some n)
    (hrt : rtOf n ≠ none) :
    ks = opPath o ∨ ∃ m2, nodeAt t ks = some m2 ∧ rtOf m2 ≠ none := by
  cases o with
  | reg v p h =>
    exact nodeAt_updAt (segs (p.drop 1)) t _ ks n
      (fun m => chOf_setVb m v h) hn hrt
  | regAll p h =>
    exact nodeAt_updAt (segs (p.drop 1)) t _ ks n
      (fun m => chOf_setAllVerbs m h) hn hrt

theorem applyOps_routed (ops : List (Op H)) :
    ∀ (t : router H) (ks : List (List Char)) (n : router H),
    nodeAt (applyOps t ops) ks = some n → rtOf n ≠ none →
    (∃ o ∈ ops, ks = opPath o)
      ∨ ∃ m2, nodeAt t ks = some m2 ∧ rtOf m2 ≠ none := by
  induction ops with
  | nil => intro t ks n hn hrt; exact Or.inr ⟨n, hn, hrt⟩
  | cons o rest ih =>
    intro t ks n hn hrt
    rcases ih (applyOp t o) ks n hn hrt with ⟨o2, ho2, hp⟩ | ⟨m2, hm2, hm2rt⟩
    · exact Or.inl ⟨o2, List.mem_cons_of_mem _ ho2, hp⟩
    · rcases applyOp_routed t o ks m2 hm2 hm2rt with h1 | h2
      · exact Or.inl ⟨o, List.mem_cons_self _ _, h1⟩
      · exact Or.inr h2

/-- C7 counterexample: `Handle(GET, "/a", nil)` — the Go `Handler`
function type admits the nil value — creates a route at `/a` whose
seven verb slots are all empty, so a node with a route but no populated
slot exists after a sequence of `Handle` calls. -/
theorem c7_counterexample_nil_handler :
    nodeAt (handle (emptyRouter Nat) .get (str "/a") none) [str "a"]
      = some (.node [] (some route0))
    ∧ ∀ v, getSlot (route0 (H := Nat)) v = none := by
  constructor
  · rfl
  · intro v; cases v <;> rfl

/-- C7 (amended): after any sequence of `Handle`/`HandleAll` calls
whose handler arguments are all non-nil, every node of the tree that
owns a route has at least one populated verb slot, and a node owns a
route only at the exact trie address of some registered path — so the
intermediate nodes `place` creates as mere path prefixes never carry a
route. (The non-nil proviso is forced: registering a Go nil handler
creates an all-empty route, see the counterexample.) -/
theorem c7_amended_invariant (H : Type) (ops : List (Op H))
    (hok : ∀ o ∈ ops, opOk o) :
    RouteInv (applyOps (emptyRouter H) ops)
    ∧ ∀ ks n, nodeAt (applyOps (emptyRouter H) ops) ks = some n →
        rtOf n ≠ none → ∃ o ∈ ops, ks = opPath o := by
  constructor
  · exact routeInv_applyOps ops (emptyRouter H) hok routeInv_empty
  · intro ks n hn hrt
    rcases applyOps_routed ops (emptyRouter H) ks n hn hrt with h | ⟨m2, hm2, hm2rt⟩
    · exact h
    · exact (nodeAt_empty_routed ks m2 hm2 hm2rt).elim

theorem c7_witness :
    RouteInv (applyOps (emptyRouter Nat) [Op.reg .get (str "/a") (some 1)]) :=
  (c7_amended_invariant Nat [Op.reg .get (str "/a") (some 1)]
    (fun o ho => by
      rcases List.mem_singleton.mp ho with rfl
      simp [opOk])).1

theorem trimSlash_eq_of_not_slash (k : List Char)
    (hlast : k.getLast? ≠ some '/') : trimSlash k = k := by
  cases hrev : k.reverse with
  | nil =>
    have hk : k = [] := by simpa using congrArg List.reverse hrev
    subst hk
    rfl
  | cons c rest =>
    have hhead : k.getLast? = some c := by
      rw [← List.head?_reverse, hrev]
      rfl
    have hc : ¬(c = '/') := fun he => hlast (by rw [hhead, he])
    have h1 : trimSlash k = ((c :: rest).dropWhile (fun x => x = '/')).reverse := by
      rw [trimSlash, hrev]
    rw [h1, List.dropWhile_cons, if_neg (by simpa using hc), ← hrev,
      List.reverse_reverse]

/-- C4 counterexample: with `GET /a/*/b` registered, dispatching
`GET /a//b` — whose middle segment is empty — is matched by the slash
wildcard (segment key `/`), invoking the handler with the empty capture,
rather than being rejected. -/
theorem c4_counterexample_empty_segment :
    serve (handle (emptyRouter Nat) .get (str "/a/*/b") (some 1)) "GET"
        (str "/a//b")
      = Outcome.invoked 1 [([] : List Char)]
    ∧ Outcome.invoked 1 [([] : List Char)] ≠ (Outcome.notFound : Outcome Nat) :=
  ⟨by decide, by decide⟩

/-- C4 (amended): a wildcard consumes exactly one segment key. The bare
`*` wildcard indeed captures only non-empty literals: it is chosen
precisely for keys not ending in a slash, and trimming such a (always
non-empty) key is the identity. But the slash wildcard can consume the
one-character key `/` arising from consecutive slashes and then
captures the empty string: `/a//b` IS matched by `/a/*/b` with capture
`""` (first conjunct), contrary to the claim. -/
theorem c4_amended_wildcard_matching (k : List Char) (hk : k ≠ [])
    (hlast : k.getLast? ≠ some '/') :
    serve (handle (emptyRouter Nat) .get (str "/a/*/b") (some 1)) "GET"
        (str "/a//b")
      = Outcome.invoked 1 [([] : List Char)]
    ∧ trimSlash k = k ∧ trimSlash k ≠ [] := by
  refine ⟨by decide, trimSlash_eq_of_not_slash k hlast, ?_⟩
  rw [trimSlash_eq_of_not_slash k hlast]
  exact hk

theorem c4_witness :
    (str "ab") ≠ ([] : List Char)
    ∧ (str "ab").getLast? ≠ some '/'
    ∧ (serve (handle (emptyRouter Nat) .get (str "/a/*/b") (some 1)) "GET"
          (str "/a//b")
        = Outcome.invoked 1 [([] : List Char)]
      ∧ trimSlash (str "ab") = str "ab" ∧ trimSlash (str "ab") ≠ []) :=
  ⟨by decide, by decide,
    c4_amended_wildcard_matching (str "ab") (by decide) (by decide)⟩

end RouterSpec
